import Mathlib

/-!
Verification of the layered configuration resolution engine of the
repository: raw sources (Init, Environment, DotEnv, SecretFile,
StructuredFile), nested-key expansion, structured-file loading, deep
merge in precedence order, and construction of the final typed instance
from a field schema with defaults.

The resolution engine itself (the `pydanticonf.settings` module with
`BaseSettingsWithYaml` and `YamlConfigSettingsSource`, plus the
pydantic-settings machinery it configures) is not present under src/ —
only its tests are — so the definitions below are modelled from the
spec, as their doc comments record.
-/

set_option autoImplicit false

namespace Pydanticonf

/-- Modelled from the spec: a raw configuration value (spec section 3,
RawMapping) — a string, number, bool, sequence, or nested mapping.
Nested mappings are association lists from keys to values. -/
inductive Value where
  | vStr : String → Value
  | vInt : Int → Value
  | vBool : Bool → Value
  | vSeq : List Value → Value
  | vMap : List (String × Value) → Value

/-- A raw mapping from keys to raw values, as produced by one source. -/
abbrev RawMap := List (String × Value)

/-- Look up the value of the first entry with the given key. -/
def lookupV (k : String) : RawMap → Option Value
  | [] => none
  | (k2, v) :: rest => if k2 = k then some v else lookupV k rest

/-- Remove every entry with the given key. -/
def removeKey (k : String) : RawMap → RawMap
  | [] => []
  | (k2, v) :: rest => if k2 = k then removeKey k rest else (k2, v) :: removeKey k rest

mutual

/-- Merge of two values on a shared key: if both are nested mappings the
merge recurses, otherwise the accumulated (higher-precedence) value wins. -/
def mergeVal : Value → Value → Value
  | Value.vMap a, Value.vMap b => Value.vMap (mergeMap a b)
  | v, _ => v

/-- Modelled from the spec: the deep-merge of two nested mappings (spec
section 4.4) — for each key of the incoming (lower-precedence) mapping, if
the accumulator lacks it, copy it in; if both have it and both values are
nested mappings, recurse; otherwise the accumulator's value wins. The
`pydanticonf` merge-resolution code is not under src/. -/
def mergeMap : RawMap → RawMap → RawMap
  | [], inc => inc
  | (k, v) :: rest, inc =>
    match lookupV k inc with
    | some w => (k, mergeVal v w) :: mergeMap rest (removeKey k inc)
    | none => (k, v) :: mergeMap rest inc

end

theorem mergeMap_nil (inc : RawMap) : mergeMap [] inc = inc := rfl

theorem mergeMap_cons_some (k : String) (v : Value) (rest inc : RawMap) (w : Value)
    (h : lookupV k inc = some w) :
    mergeMap ((k, v) :: rest) inc = (k, mergeVal v w) :: mergeMap rest (removeKey k inc) := by
  rw [mergeMap, h]

theorem mergeMap_cons_none (k : String) (v : Value) (rest inc : RawMap)
    (h : lookupV k inc = none) :
    mergeMap ((k, v) :: rest) inc = (k, v) :: mergeMap rest inc := by
  rw [mergeMap, h]

theorem lookupV_removeKey_ne {k k2 : String} (h : k2 ≠ k) (m : RawMap) :
    lookupV k (removeKey k2 m) = lookupV k m := by
  induction m with
  | nil => rfl
  | cons e rest ih =>
    obtain ⟨k3, v3⟩ := e
    by_cases h3 : k3 = k2
    · subst h3
      simp [removeKey, lookupV, h, ih]
    · by_cases h4 : k3 = k
      · subst h4
        simp [removeKey, lookupV, h3]
      · simp [removeKey, lookupV, h3, h4, ih]

/-- Key lookup in a deep merge: a key present only on one side keeps that
side's value; a key present on both sides gets the value merge. -/
theorem lookupV_mergeMap (k : String) (acc inc : RawMap) :
    lookupV k (mergeMap acc inc) =
      match lookupV k acc, lookupV k inc with
      | some v, some w => some (mergeVal v w)
      | some v, none => some v
      | none, o => o := by
  induction acc generalizing inc with
  | nil =>
    rw [mergeMap_nil]
    cases h : lookupV k inc <;> simp [lookupV, h]
  | cons e rest ih =>
    obtain ⟨k2, v2⟩ := e
    by_cases hk : k2 = k
    · subst hk
      cases h2 : lookupV k2 inc with
      | some w2 =>
        rw [mergeMap_cons_some k2 v2 rest inc w2 h2]
        simp [lookupV, h2]
      | none =>
        rw [mergeMap_cons_none k2 v2 rest inc h2]
        simp [lookupV, h2]
    · cases h2 : lookupV k2 inc with
      | some w2 =>
        rw [mergeMap_cons_some k2 v2 rest inc w2 h2]
        rw [lookupV, if_neg hk, ih (removeKey k2 inc), lookupV_removeKey_ne hk inc]
        rw [lookupV, if_neg hk]
      | none =>
        rw [mergeMap_cons_none k2 v2 rest inc h2]
        rw [lookupV, if_neg hk, ih inc]
        rw [lookupV, if_neg hk]

theorem mergeMap_nil_right (m : RawMap) : mergeMap m [] = m := by
  induction m with
  | nil => rfl
  | cons e rest ih =>
    obtain ⟨k, v⟩ := e
    rw [mergeMap_cons_none k v rest [] rfl, ih]

/-! String utilities, defined structurally over the character list of a
`String` so that they are executable on concrete inputs. -/

/-- Lower-case every character of a string. -/
def lowerStr (s : String) : String := String.mk (s.data.map Char.toLower)

/-- Split a character list at every occurrence of the (nonempty) delimiter
`d`; the fuel argument bounds the recursion by the input length. -/
def splitFuel (d : List Char) : Nat → List Char → List Char → List (List Char)
  | _, [], acc => [acc.reverse]
  | 0, s, acc => [acc.reverse ++ s]
  | n + 1, c :: rest, acc =>
    if d.isPrefixOf (c :: rest) then
      acc.reverse :: splitFuel d n (List.drop (d.length - 1) rest) []
    else
      splitFuel d n rest (c :: acc)

/-- Split a string on every occurrence of the delimiter `d`; an empty
delimiter splits nothing. -/
def strSplit (d s : String) : List String :=
  if d.data = [] then [s] else (splitFuel d.data s.data.length s.data []).map String.mk

/-- Whether `p` is a leading substring of `s`. -/
def isPreOf (p s : String) : Bool := p.data.isPrefixOf s.data

/-- Drop the first `n` characters of a string. -/
def dropStr (n : Nat) (s : String) : String := String.mk (s.data.drop n)

/-- The number of characters of a string. -/
def strLen (s : String) : Nat := s.data.length

/-- Plain whitespace characters of a dotenv line. -/
def isWs (c : Char) : Bool := c = ' ' || c = '\t' || c = '\r'

/-- Strip leading and trailing whitespace. -/
def trimStr (s : String) : String :=
  String.mk (((s.data.dropWhile isWs).reverse.dropWhile isWs).reverse)

/-- Join strings with the delimiter `d` between them. -/
def strJoin (d : String) (ss : List String) : String :=
  String.mk (List.intercalate d.data (ss.map String.data))

/-! The source model: per-schema configuration, the state of the outside
world a resolution call reads, and the five raw sources. -/

/-- Modelled from the spec: the parse failure reported for a malformed
structured file (spec section 7, MalformedSource) — an error kind and a
message, surfaced to the caller unchanged. -/
structure ParseError where
  kind : String
  message : String

/-- Modelled from the spec: a resolution call either fails with the
propagated parse error of a malformed structured file or with a
validation failure naming a required field that no source supplied. -/
inductive ConfigError where
  | parse : ParseError → ConfigError
  | missingField : String → ConfigError

/-- Modelled from the spec: the per-schema source configuration (spec
sections 3 and 6, SourceDescriptor) — key prefix (default none), nested
delimiter (default double underscore), case sensitivity (default
insensitive), structured-file path and text encoding (default UTF-8);
declared once per schema. The `pydanticonf.settings` module is not under
src/. -/
structure SettingsConfig where
  envPre : String := ""
  envNestedDelim : Option String := some "__"
  caseSensitive : Bool := false
  yamlFile : Option String := none
  yamlFileEncoding : Option String := none

/-- Modelled from the spec: the possible states of the structured (YAML)
file at the configured path, abstracting the byte-level parser (spec
section 4.3) — absent, present but empty, a parsed top-level mapping, or
present but syntactically invalid with its parse error. -/
inductive YamlDoc where
  | missing : YamlDoc
  | empty : YamlDoc
  | mapping : RawMap → YamlDoc
  | malformed : ParseError → YamlDoc

/-- Modelled from the spec: everything outside the process a resolution
call reads — explicit constructor values, the process environment, the
dotenv file content (if any), the secret-file values, and the state of
the structured file. -/
structure World where
  initKwargs : RawMap := []
  env : List (String × String) := []
  dotenvContent : Option String := none
  secretsMap : RawMap := []
  yamlDoc : YamlDoc := YamlDoc.missing

/-- The world with no active sources at all. -/
def emptyWorld : World := {}

/-- Modelled from the spec: the structured-file loader (spec section 4.3)
— a missing or empty file contributes an empty mapping with no error, a
valid file contributes its parsed mapping, and a malformed file
propagates the underlying parse error unchanged. -/
def loadYaml : YamlDoc → Except ParseError RawMap
  | YamlDoc.missing => Except.ok []
  | YamlDoc.empty => Except.ok []
  | YamlDoc.mapping m => Except.ok m
  | YamlDoc.malformed e => Except.error e

/-- Strip the configured key prefix; keys without the prefix are skipped. -/
def dropPre (pre k : String) : Option String :=
  if isPreOf pre k then some (dropStr (strLen pre) k) else none

/-- Case-fold a key unless the schema is case sensitive. -/
def normCase (cs : Bool) (k : String) : String := if cs then k else lowerStr k

/-- Modelled from the spec: flat keys kept by an Environment or DotEnv
source (spec section 4.1) — keys matching the optional prefix are kept
with the prefix stripped and the rest case-folded; values stay raw
strings. -/
def flatEntries (cfg : SettingsConfig) (pairs : List (String × String)) :
    List (String × String) :=
  pairs.filterMap fun kv =>
    (dropPre cfg.envPre kv.1).map fun k2 => (normCase cfg.caseSensitive k2, kv.2)

/-- Split a flat key into path segments at the configured delimiter. -/
def splitKey (delim : Option String) (k : String) : List String :=
  match delim with
  | none => [k]
  | some d => strSplit d k

/-- A nested mapping holding a single value at the given key path. -/
def nestedSingleton : List String → Value → RawMap
  | [], _ => []
  | [k], v => [(k, v)]
  | k :: k2 :: rest, v => [(k, Value.vMap (nestedSingleton (k2 :: rest) v))]

/-- Modelled from the spec: the nested-key expander (spec section 4.2) —
split each flat key on the delimiter into path segments, create the
intermediate mapping nodes, and set the leaf value at the final
segment. -/
def expandFlat (cfg : SettingsConfig) (pairs : List (String × String)) : RawMap :=
  (flatEntries cfg pairs).foldl
    (fun acc kv => mergeMap acc (nestedSingleton (splitKey cfg.envNestedDelim kv.1) (Value.vStr kv.2)))
    []

/-- The nested mapping contributed by the Environment source. -/
def envSourceMap (cfg : SettingsConfig) (w : World) : RawMap := expandFlat cfg w.env

/-- Modelled from the spec: one `KEY=VALUE` line of a dotenv file (spec
section 6) — `#`-prefixed lines and blank lines are ignored, the value is
the literal text after the first `=`. -/
def parseDotEnvLine (line : String) : Option (String × String) :=
  let t := trimStr line
  if t = "" then none
  else if isPreOf "#" t then none
  else
    match strSplit "=" t with
    | [] => none
    | [_] => none
    | k :: rest => some (k, strJoin "=" rest)

/-- Modelled from the spec: the DotEnv source (spec section 4.1) — an
absent file contributes nothing; a present file is read line by line. -/
def parseDotEnv : Option String → List (String × String)
  | none => []
  | some content => (strSplit "\n" content).filterMap parseDotEnvLine

/-- The nested mapping contributed by the DotEnv source. -/
def dotenvSourceMap (cfg : SettingsConfig) (w : World) : RawMap :=
  expandFlat cfg (parseDotEnv w.dotenvContent)

/-- Modelled from the spec: the four base source mappings in precedence
order — Init, Environment, DotEnv, SecretFile (spec section 3). -/
def baseMaps (cfg : SettingsConfig) (w : World) : List RawMap :=
  [w.initKwargs, envSourceMap cfg w, dotenvSourceMap cfg w, w.secretsMap]

/-- Modelled from the spec: all active source mappings in precedence
order, the structured-file mapping last (lowest precedence) when a
structured file is configured; a malformed structured file aborts with
its parse error. -/
def orderedMaps (cfg : SettingsConfig) (w : World) : Except ParseError (List RawMap) :=
  match cfg.yamlFile with
  | none => Except.ok (baseMaps cfg w)
  | some _ =>
    match loadYaml w.yamlDoc with
    | Except.error e => Except.error e
    | Except.ok ym => Except.ok (baseMaps cfg w ++ [ym])

/-- Fold the source mappings in precedence order into one merged mapping;
earlier (higher-precedence) mappings win key-by-key. -/
def mergeAll (ms : List RawMap) : RawMap := ms.foldl mergeMap []

/-- A declared field of the configuration schema: a name and an optional
default value (no default means the field is required). -/
structure FieldSpec where
  name : String
  default : Option Value

/-- Modelled from the spec: the external schema model at its interface
(spec sections 4.4 and 6) — each field takes its merged value when the
merged mapping has one, its declared default otherwise, and a missing
required field aborts with a validation error. -/
def buildInstance (merged : RawMap) : List FieldSpec → Except ConfigError (List (String × Value))
  | [] => Except.ok []
  | f :: rest =>
    match lookupV f.name merged with
    | some v => (buildInstance merged rest).map fun tail => (f.name, v) :: tail
    | none =>
      match f.default with
      | some d => (buildInstance merged rest).map fun tail => (f.name, d) :: tail
      | none => Except.error (ConfigError.missingField f.name)

/-- The all-defaults instance of a schema, if every field has a default. -/
def allDefaults : List FieldSpec → Option (List (String × Value))
  | [] => some []
  | f :: rest =>
    match f.default with
    | some d => (allDefaults rest).map fun tail => (f.name, d) :: tail
    | none => none

/-- Modelled from the spec: one resolution call (spec section 4.4) —
instantiate and query each source, order the mappings by precedence,
deep-merge them, and hand the merged mapping to the schema model. -/
def resolve (cfg : SettingsConfig) (schema : List FieldSpec) (w : World) :
    Except ConfigError (List (String × Value)) :=
  match orderedMaps cfg w with
  | Except.error e => Except.error (ConfigError.parse e)
  | Except.ok ms => buildInstance (mergeAll ms) schema

/-! The source-composition hook of `BaseSettingsWithYaml`, and path-level
notions used to state the merge properties. -/

/-- A source object as seen by the composition hook: one of the four base
sources passed in (kept abstract), or the YAML source the hook constructs
from a file path and a text encoding. -/
inductive SourceObj (α : Type) where
  | base : α → SourceObj α
  | yamlSrc : String → String → SourceObj α

/-- Modelled from the spec: the `settings_customise_sources` hook of
`BaseSettingsWithYaml` (not under src/) — with no structured file
configured it returns the four received sources unchanged; otherwise it
appends a YAML source built from the configured path and the configured
encoding, defaulting to UTF-8. -/
def settingsCustomiseSources {α : Type} (cfg : SettingsConfig) (i e d f : α) :
    List (SourceObj α) :=
  match cfg.yamlFile with
  | none => [SourceObj.base i, SourceObj.base e, SourceObj.base d, SourceObj.base f]
  | some p =>
    [SourceObj.base i, SourceObj.base e, SourceObj.base d, SourceObj.base f,
      SourceObj.yamlSrc p (cfg.yamlFileEncoding.getD "utf-8")]

/-- Walk a nonempty key path through nested mappings down to a value. -/
def getPath : RawMap → List String → Option Value
  | _, [] => none
  | m, [k] => lookupV k m
  | m, k :: k2 :: rest =>
    match lookupV k m with
    | some (Value.vMap m2) => getPath m2 (k2 :: rest)
    | _ => none

/-- A value that the merge never recurses into: anything but a nonempty
nested mapping. The maximal paths of a source's mapping end at such
values. -/
def atomicV : Value → Bool
  | Value.vMap (_ :: _) => false
  | _ => true

mutual

/-- Whether two values found under a shared key come from disjoint key
paths: both must be nonempty nested mappings whose shared keys are again
disjoint. -/
def disjointV : Value → Value → Bool
  | Value.vMap (e :: es), Value.vMap (f :: fs) => disjointB (e :: es) (f :: fs)
  | _, _ => false

/-- Whether two nested mappings supply disjoint key paths: every key
present in both must hold nonempty nested mappings on both sides, again
disjoint — so no maximal path of one is a prefix of a maximal path of
the other. -/
def disjointB : RawMap → RawMap → Bool
  | [], _ => true
  | (k, v) :: rest, m2 =>
    (match lookupV k m2 with
     | none => true
     | some w => disjointV v w)
    && disjointB rest m2

end

/-- Fetch the Init source: reads the explicit constructor values. -/
def fetchInit (w : World) : RawMap × World := (w.initKwargs, w)

/-- Fetch the Environment source: scans the process environment. -/
def fetchEnv (cfg : SettingsConfig) (w : World) : RawMap × World := (expandFlat cfg w.env, w)

/-- Fetch the DotEnv source: reads and parses the dotenv file. -/
def fetchDotenv (cfg : SettingsConfig) (w : World) : RawMap × World :=
  (expandFlat cfg (parseDotEnv w.dotenvContent), w)

/-- Fetch the SecretFile source: reads the secret-file values. -/
def fetchSecrets (w : World) : RawMap × World := (w.secretsMap, w)

/-- Fetch the StructuredFile source: loads the YAML file when one is
configured, contributing its mapping or a parse failure. -/
def fetchYaml (cfg : SettingsConfig) (w : World) : Except ParseError (List RawMap) × World :=
  match cfg.yamlFile with
  | none => (Except.ok [], w)
  | some _ =>
    match loadYaml w.yamlDoc with
    | Except.error e => (Except.error e, w)
    | Except.ok ym => (Except.ok [ym], w)

/-- Modelled from the spec: one resolution call written as the single-pass
pipeline of spec section 4.4 — each source is queried in precedence order,
the outside-world state threading through every fetch, and the merged
mapping is handed to the schema model. -/
def resolveS (cfg : SettingsConfig) (schema : List FieldSpec) (w : World) :
    Except ConfigError (List (String × Value)) × World :=
  let (im, w1) := fetchInit w
  let (em, w2) := fetchEnv cfg w1
  let (dm, w3) := fetchDotenv cfg w2
  let (sm, w4) := fetchSecrets w3
  let (ym, w5) := fetchYaml cfg w4
  match ym with
  | Except.error e => (Except.error (ConfigError.parse e), w5)
  | Except.ok ys => (buildInstance (mergeAll ([im, em, dm, sm] ++ ys)) schema, w5)

/-! Supporting lemmas. -/

/-- Whether a value is a nested mapping. -/
def isMapV : Value → Bool
  | Value.vMap _ => true
  | _ => false

theorem mergeVal_of_not_map {v : Value} (w : Value) (h : isMapV v = false) :
    mergeVal v w = v := by
  cases v <;> cases w <;> simp_all [mergeVal, isMapV]

theorem lookupV_mem {k : String} {v : Value} :
    ∀ {m : RawMap}, lookupV k m = some v → (k, v) ∈ m := by
  intro m h
  induction m with
  | nil => simp [lookupV] at h
  | cons e rest ih =>
    obtain ⟨k2, v2⟩ := e
    rw [lookupV] at h
    by_cases hk : k2 = k
    · subst hk
      rw [if_pos rfl] at h
      injection h with h
      subst h
      exact List.mem_cons_self _ _
    · rw [if_neg hk] at h
      exact List.mem_cons_of_mem _ (ih h)

theorem disjointV_true : ∀ {v w : Value}, disjointV v w = true →
    ∃ a b, v = Value.vMap a ∧ w = Value.vMap b ∧ a ≠ [] ∧ b ≠ [] ∧ disjointB a b = true := by
  intro v w h
  rw [disjointV.eq_def] at h
  split at h
  · exact ⟨_, _, rfl, rfl, List.cons_ne_nil _ _, List.cons_ne_nil _ _, h⟩
  · exact absurd h (by simp)

theorem disjointB_spec : ∀ {m1 : RawMap} {m2 : RawMap} {k : String} {v w : Value},
    disjointB m1 m2 = true → (k, v) ∈ m1 → lookupV k m2 = some w →
    ∃ a b, v = Value.vMap a ∧ w = Value.vMap b ∧ a ≠ [] ∧ b ≠ [] ∧ disjointB a b = true := by
  intro m1
  induction m1 with
  | nil =>
    intro m2 k v w _ hm _
    simp at hm
  | cons e rest ih =>
    intro m2 k v w hd hm hl
    obtain ⟨k2, v2⟩ := e
    rw [disjointB, Bool.and_eq_true] at hd
    obtain ⟨hd1, hd2⟩ := hd
    rcases List.mem_cons.mp hm with he | hm2
    · injection he with hk hv
      subst hk
      subst hv
      rw [hl] at hd1
      simp only at hd1
      exact disjointV_true hd1
    · exact ih hd2 hm2 hl

theorem merge_keeps_acc : ∀ (p : List String) (acc inc : RawMap),
    disjointB acc inc = true → ∀ v, getPath acc p = some v → atomicV v = true →
    getPath (mergeMap acc inc) p = some v := by
  intro p
  induction p with
  | nil =>
    intro acc inc _ v hv _
    simp [getPath] at hv
  | cons k rest ih =>
    intro acc inc hd v hv hatom
    cases rest with
    | nil =>
      simp only [getPath] at hv ⊢
      rw [lookupV_mergeMap, hv]
      cases hinc : lookupV k inc with
      | none => rfl
      | some w =>
        obtain ⟨a, b, hva, hwb, ha, hb, hab⟩ := disjointB_spec hd (lookupV_mem hv) hinc
        subst hva
        cases a with
        | nil => exact absurd rfl ha
        | cons a0 as => simp [atomicV] at hatom
    | cons k2 p2 =>
      simp only [getPath] at hv ⊢
      cases hacc : lookupV k acc with
      | none => rw [hacc] at hv; simp at hv
      | some u =>
        rw [hacc] at hv
        cases u with
        | vMap a =>
          simp only at hv
          rw [lookupV_mergeMap, hacc]
          cases hinc : lookupV k inc with
          | none => exact hv
          | some w =>
            obtain ⟨a2, b, hva, hwb, ha2, hb, hab⟩ :=
              disjointB_spec hd (lookupV_mem hacc) hinc
            injection hva with hva
            subst hva
            subst hwb
            simp only [mergeVal]
            exact ih a b hab v hv hatom
        | vStr s => simp at hv
        | vInt i => simp at hv
        | vBool b => simp at hv
        | vSeq l => simp at hv

theorem merge_keeps_inc : ∀ (p : List String) (acc inc : RawMap),
    disjointB acc inc = true → ∀ v, getPath inc p = some v → atomicV v = true →
    getPath (mergeMap acc inc) p = some v := by
  intro p
  induction p with
  | nil =>
    intro acc inc _ v hv _
    simp [getPath] at hv
  | cons k rest ih =>
    intro acc inc hd v hv hatom
    cases rest with
    | nil =>
      simp only [getPath] at hv ⊢
      rw [lookupV_mergeMap, hv]
      cases hacc : lookupV k acc with
      | none => rfl
      | some u =>
        obtain ⟨a, b, hua, hvb, ha, hb, hab⟩ := disjointB_spec hd (lookupV_mem hacc) hv
        subst hvb
        cases b with
        | nil => exact absurd rfl hb
        | cons b0 bs => simp [atomicV] at hatom
    | cons k2 p2 =>
      simp only [getPath] at hv ⊢
      cases hinck : lookupV k inc with
      | none => rw [hinck] at hv; simp at hv
      | some u =>
        rw [hinck] at hv
        cases u with
        | vMap b =>
          simp only at hv
          rw [lookupV_mergeMap, hinck]
          cases hacc : lookupV k acc with
          | none => exact hv
          | some u2 =>
            obtain ⟨a, b2, hua, hvb, ha, hb2, hab⟩ :=
              disjointB_spec hd (lookupV_mem hacc) hinck
            injection hvb with hvb
            subst hvb
            subst hua
            simp only [mergeVal]
            exact ih a b hab v hv hatom
        | vStr s => simp at hv
        | vInt i => simp at hv
        | vBool b => simp at hv
        | vSeq l => simp at hv

theorem lookupV_foldl_none {k : String} : ∀ (ms : List RawMap) (acc : RawMap),
    (∀ m ∈ ms, lookupV k m = none) →
    lookupV k (List.foldl mergeMap acc ms) = lookupV k acc := by
  intro ms
  induction ms with
  | nil => intro acc _; rfl
  | cons m rest ih =>
    intro acc h
    rw [List.foldl_cons, ih _ fun m2 hm2 => h m2 (List.mem_cons_of_mem _ hm2)]
    rw [lookupV_mergeMap, h m (List.mem_cons_self _ _)]
    cases lookupV k acc <;> rfl

theorem lookupV_foldl_stable {k : String} {v : Value} (hscalar : isMapV v = false) :
    ∀ (ms : List RawMap) (acc : RawMap), lookupV k acc = some v →
    lookupV k (List.foldl mergeMap acc ms) = some v := by
  intro ms
  induction ms with
  | nil => intro acc h; exact h
  | cons m rest ih =>
    intro acc h
    rw [List.foldl_cons]
    apply ih
    rw [lookupV_mergeMap, h]
    cases lookupV k m with
    | none => rfl
    | some w =>
      show some (mergeVal v w) = some v
      rw [mergeVal_of_not_map w hscalar]

theorem buildInstance_field {merged : RawMap} {k : String} {v : Value} :
    ∀ {schema : List FieldSpec} {inst : List (String × Value)},
    buildInstance merged schema = Except.ok inst → (∃ f ∈ schema, f.name = k) →
    lookupV k merged = some v → lookupV k inst = some v := by
  intro schema
  induction schema with
  | nil =>
    intro inst _ hf _
    simp at hf
  | cons f rest ih =>
    intro inst hbuild hf hv
    by_cases hname : f.name = k
    · subst hname
      rw [buildInstance, hv] at hbuild
      cases hrest : buildInstance merged rest with
      | error e => rw [hrest] at hbuild; simp [Except.map] at hbuild
      | ok tail =>
        rw [hrest] at hbuild
        simp [Except.map] at hbuild
        subst hbuild
        simp [lookupV]
    · obtain ⟨f2, hf2, hf2k⟩ := hf
      rcases List.mem_cons.mp hf2 with rfl | hf2rest
      · exact absurd hf2k hname
      · rw [buildInstance] at hbuild
        cases hlook : lookupV f.name merged with
        | some u =>
          rw [hlook] at hbuild
          cases hrest : buildInstance merged rest with
          | error e => rw [hrest] at hbuild; simp [Except.map] at hbuild
          | ok tail =>
            rw [hrest] at hbuild
            simp [Except.map] at hbuild
            subst hbuild
            rw [lookupV, if_neg hname]
            exact ih hrest ⟨f2, hf2rest, hf2k⟩ hv
        | none =>
          rw [hlook] at hbuild
          cases hdef : f.default with
          | some d =>
            rw [hdef] at hbuild
            cases hrest : buildInstance merged rest with
            | error e => rw [hrest] at hbuild; simp [Except.map] at hbuild
            | ok tail =>
              rw [hrest] at hbuild
              simp [Except.map] at hbuild
              subst hbuild
              rw [lookupV, if_neg hname]
              exact ih hrest ⟨f2, hf2rest, hf2k⟩ hv
          | none => rw [hdef] at hbuild; simp at hbuild

theorem buildInstance_defaults : ∀ {schema : List FieldSpec} {inst : List (String × Value)},
    allDefaults schema = some inst → buildInstance [] schema = Except.ok inst := by
  intro schema
  induction schema with
  | nil =>
    intro inst h
    rw [allDefaults] at h
    injection h with h
    subst h
    rfl
  | cons f rest ih =>
    intro inst h
    rw [allDefaults] at h
    cases hdef : f.default with
    | none => rw [hdef] at h; simp at h
    | some d =>
      rw [hdef] at h
      cases hrest : allDefaults rest with
      | none => rw [hrest] at h; simp [Option.map] at h
      | some tail =>
        rw [hrest] at h
        simp [Option.map] at h
        subst h
        rw [buildInstance]
        show (match f.default with
          | some d => (buildInstance [] rest).map fun tail => (f.name, d) :: tail
          | none => Except.error (ConfigError.missingField f.name)) = _
        rw [hdef, ih hrest]
        rfl

theorem buildInstance_error_iff (merged : RawMap) : ∀ (schema : List FieldSpec),
    (∃ e, buildInstance merged schema = Except.error e) ↔
      ∃ f ∈ schema, f.default = none ∧ lookupV f.name merged = none := by
  intro schema
  induction schema with
  | nil => simp [buildInstance]
  | cons f rest ih =>
    constructor
    · rintro ⟨e, he⟩
      rw [buildInstance] at he
      cases hlook : lookupV f.name merged with
      | some u =>
        rw [hlook] at he
        cases hrest : buildInstance merged rest with
        | error e2 =>
          obtain ⟨f2, hf2, hd2, hl2⟩ := ih.mp ⟨e2, hrest⟩
          exact ⟨f2, List.mem_cons_of_mem _ hf2, hd2, hl2⟩
        | ok tail => rw [hrest] at he; simp [Except.map] at he
      | none =>
        rw [hlook] at he
        cases hdef : f.default with
        | some d =>
          rw [hdef] at he
          cases hrest : buildInstance merged rest with
          | error e2 =>
            obtain ⟨f2, hf2, hd2, hl2⟩ := ih.mp ⟨e2, hrest⟩
            exact ⟨f2, List.mem_cons_of_mem _ hf2, hd2, hl2⟩
          | ok tail => rw [hrest] at he; simp [Except.map] at he
        | none => exact ⟨f, List.mem_cons_self _ _, hdef, hlook⟩
    · rintro ⟨f2, hf2, hd2, hl2⟩
      rcases List.mem_cons.mp hf2 with rfl | hf2rest
      · refine ⟨ConfigError.missingField f2.name, ?_⟩
        rw [buildInstance, hl2, hd2]
      · rw [buildInstance]
        cases hlook : lookupV f.name merged with
        | some u =>
          obtain ⟨e2, he2⟩ := ih.mpr ⟨f2, hf2rest, hd2, hl2⟩
          exact ⟨e2, by rw [he2]; rfl⟩
        | none =>
          cases hdef : f.default with
          | some d =>
            obtain ⟨e2, he2⟩ := ih.mpr ⟨f2, hf2rest, hd2, hl2⟩
            exact ⟨e2, by rw [he2]; rfl⟩
          | none => exact ⟨ConfigError.missingField f.name, rfl⟩

theorem mergeVal_of_not_map_right (v : Value) {w : Value} (h : isMapV w = false) :
    mergeVal v w = v := by
  cases v <;> cases w <;> simp_all [mergeVal, isMapV]

/-! The claims. -/

/-- C2: the deep-merge of two nested mappings satisfies, for every key: if
the higher-precedence accumulator lacks the key, the incoming value is
copied in; if both have it and both values are nested mappings, the merge
recurses into them; if both have it and either value is a scalar or
sequence, the accumulator's value is kept and the incoming value is
discarded. -/
theorem c2_deep_merge_cases (acc inc : RawMap) (k : String) :
    (lookupV k acc = none → lookupV k (mergeMap acc inc) = lookupV k inc) ∧
    (∀ a b, lookupV k acc = some (Value.vMap a) → lookupV k inc = some (Value.vMap b) →
      lookupV k (mergeMap acc inc) = some (Value.vMap (mergeMap a b))) ∧
    (∀ v w, lookupV k acc = some v → lookupV k inc = some w →
      isMapV v = false ∨ isMapV w = false →
      lookupV k (mergeMap acc inc) = some v) := by
  refine ⟨?_, ?_, ?_⟩
  · intro h
    rw [lookupV_mergeMap, h]
  · intro a b h1 h2
    rw [lookupV_mergeMap, h1, h2]
    rfl
  · intro v w h1 h2 hs
    rw [lookupV_mergeMap, h1, h2]
    show some (mergeVal v w) = some v
    rcases hs with hs | hs
    · rw [mergeVal_of_not_map w hs]
    · rw [mergeVal_of_not_map_right v hs]

theorem c2_witness :
    lookupV "b" (mergeMap [("a", Value.vStr "1")] [("b", Value.vStr "2")]) =
      some (Value.vStr "2") ∧
    lookupV "a" (mergeMap [("a", Value.vStr "1")] [("a", Value.vStr "x")]) =
      some (Value.vStr "1") :=
  ⟨(c2_deep_merge_cases [("a", Value.vStr "1")] [("b", Value.vStr "2")] "b").1 rfl,
    (c2_deep_merge_cases [("a", Value.vStr "1")] [("a", Value.vStr "x")] "a").2.2
      (Value.vStr "1") (Value.vStr "x") rfl rfl (Or.inl rfl)⟩

/-- C4: whenever the structured (YAML) file is configured and exists but
is syntactically invalid, resolution aborts by propagating the underlying
parse error unchanged and never returns an instance. -/
theorem c4_malformed_yaml_aborts (cfg : SettingsConfig) (schema : List FieldSpec)
    (w : World) (p : String) (e : ParseError)
    (hyaml : cfg.yamlFile = some p) (hdoc : w.yamlDoc = YamlDoc.malformed e) :
    resolve cfg schema w = Except.error (ConfigError.parse e) := by
  simp [resolve, orderedMaps, hyaml, hdoc, loadYaml]

theorem c4_witness :
    resolve { yamlFile := some "config.yaml" }
      [⟨"app_name", some (Value.vStr "Default")⟩]
      { yamlDoc := YamlDoc.malformed ⟨"ScannerError", "mapping values are not allowed here"⟩ } =
    Except.error (ConfigError.parse ⟨"ScannerError", "mapping values are not allowed here"⟩) :=
  c4_malformed_yaml_aborts { yamlFile := some "config.yaml" }
    [⟨"app_name", some (Value.vStr "Default")⟩]
    { yamlDoc := YamlDoc.malformed ⟨"ScannerError", "mapping values are not allowed here"⟩ }
    "config.yaml" ⟨"ScannerError", "mapping values are not allowed here"⟩ rfl rfl

/-- C5: when the structured (YAML) file does not exist, or exists with
empty content, the structured-file source contributes an empty mapping
and raises no error, and resolution yields exactly what the remaining
sources and declared defaults determine. -/
theorem c5_missing_or_empty_yaml (cfg : SettingsConfig) (schema : List FieldSpec)
    (w : World) (h : w.yamlDoc = YamlDoc.missing ∨ w.yamlDoc = YamlDoc.empty) :
    loadYaml w.yamlDoc = Except.ok [] ∧
    resolve cfg schema w = resolve { cfg with yamlFile := none } schema w := by
  have hload : loadYaml w.yamlDoc = Except.ok [] := by
    rcases h with h | h <;> rw [h] <;> rfl
  refine ⟨hload, ?_⟩
  cases hy : cfg.yamlFile with
  | none =>
    simp only [resolve, orderedMaps, hy]
    rfl
  | some p =>
    simp only [resolve, orderedMaps, hy, hload]
    have : mergeAll (baseMaps cfg w ++ [[]]) = mergeAll (baseMaps cfg w) := by
      rw [mergeAll, mergeAll, List.foldl_append]
      simp [mergeMap_nil_right]
    rw [this]
    rfl

theorem c5_witness :
    loadYaml YamlDoc.missing = Except.ok [] ∧
    resolve { yamlFile := some "nonexistent.yaml" } [⟨"app_name", some (Value.vStr "Default")⟩]
        { yamlDoc := YamlDoc.missing } =
      resolve { yamlFile := none } [⟨"app_name", some (Value.vStr "Default")⟩]
        { yamlDoc := YamlDoc.missing } :=
  c5_missing_or_empty_yaml { yamlFile := some "nonexistent.yaml" }
    [⟨"app_name", some (Value.vStr "Default")⟩] { yamlDoc := YamlDoc.missing } (Or.inl rfl)

/-- C9: the source-composition hook always constructs the YAML source with
the schema's declared text encoding — "utf-8" when no encoding is
declared, and exactly the declared encoding otherwise. -/
theorem c9_yaml_source_encoding {α : Type} (cfg : SettingsConfig) (i e d f : α)
    (p : String) (hyaml : cfg.yamlFile = some p) :
    (cfg.yamlFileEncoding = none →
      settingsCustomiseSources cfg i e d f =
        [SourceObj.base i, SourceObj.base e, SourceObj.base d, SourceObj.base f,
          SourceObj.yamlSrc p "utf-8"]) ∧
    (∀ enc, cfg.yamlFileEncoding = some enc →
      settingsCustomiseSources cfg i e d f =
        [SourceObj.base i, SourceObj.base e, SourceObj.base d, SourceObj.base f,
          SourceObj.yamlSrc p enc]) := by
  constructor
  · intro henc
    simp [settingsCustomiseSources, hyaml, henc]
  · intro enc henc
    simp [settingsCustomiseSources, hyaml, henc]

theorem c9_witness :
    settingsCustomiseSources { yamlFile := some "config.yaml" } (0 : Nat) 1 2 3 =
      [SourceObj.base 0, SourceObj.base 1, SourceObj.base 2, SourceObj.base 3,
        SourceObj.yamlSrc "config.yaml" "utf-8"] ∧
    settingsCustomiseSources { yamlFile := some "config.yaml", yamlFileEncoding := some "latin-1" }
        (0 : Nat) 1 2 3 =
      [SourceObj.base 0, SourceObj.base 1, SourceObj.base 2, SourceObj.base 3,
        SourceObj.yamlSrc "config.yaml" "latin-1"] :=
  ⟨(c9_yaml_source_encoding { yamlFile := some "config.yaml" } 0 1 2 3 "config.yaml" rfl).1 rfl,
    (c9_yaml_source_encoding { yamlFile := some "config.yaml", yamlFileEncoding := some "latin-1" }
      0 1 2 3 "config.yaml" rfl).2 "latin-1" rfl⟩

/-- C10: for a schema configuration declaring no structured (YAML) file,
the source-composition hook returns exactly the four base sources it
received, in the same order, with no fifth YAML source appended. -/
theorem c10_no_yaml_keeps_base_sources {α : Type} (cfg : SettingsConfig) (i e d f : α)
    (h : cfg.yamlFile = none) :
    settingsCustomiseSources cfg i e d f =
      [SourceObj.base i, SourceObj.base e, SourceObj.base d, SourceObj.base f] := by
  simp [settingsCustomiseSources, h]

theorem c10_witness :
    settingsCustomiseSources { envPre := "TEST_" } (10 : Nat) 11 12 13 =
      [SourceObj.base 10, SourceObj.base 11, SourceObj.base 12, SourceObj.base 13] :=
  c10_no_yaml_keeps_base_sources { envPre := "TEST_" } 10 11 12 13 rfl

/-- C3: merging is additive per key-path — when two source mappings supply
disjoint key paths (including distinct sibling keys inside the same
nested object), every supplied value of either source is still found at
its own path in the merged mapping; no unrelated keys are discarded. -/
theorem c3_disjoint_paths_coexist (acc inc : RawMap) (h : disjointB acc inc = true) :
    (∀ p v, getPath acc p = some v → atomicV v = true →
      getPath (mergeMap acc inc) p = some v) ∧
    (∀ p v, getPath inc p = some v → atomicV v = true →
      getPath (mergeMap acc inc) p = some v) :=
  ⟨fun p v hv ha => merge_keeps_acc p acc inc h v hv ha,
    fun p v hv ha => merge_keeps_inc p acc inc h v hv ha⟩

theorem c3_witness :
    getPath
        (mergeMap [("database", Value.vMap [("port", Value.vStr "5432")])]
          [("database", Value.vMap [("host", Value.vStr "localhost")])])
        ["database", "port"] = some (Value.vStr "5432") ∧
    getPath
        (mergeMap [("database", Value.vMap [("port", Value.vStr "5432")])]
          [("database", Value.vMap [("host", Value.vStr "localhost")])])
        ["database", "host"] = some (Value.vStr "localhost") :=
  ⟨(c3_disjoint_paths_coexist [("database", Value.vMap [("port", Value.vStr "5432")])]
      [("database", Value.vMap [("host", Value.vStr "localhost")])] rfl).1
      ["database", "port"] (Value.vStr "5432") rfl rfl,
    (c3_disjoint_paths_coexist [("database", Value.vMap [("port", Value.vStr "5432")])]
      [("database", Value.vMap [("host", Value.vStr "localhost")])] rfl).2
      ["database", "host"] (Value.vStr "localhost") rfl rfl⟩

/-- The example configuration of the nested-delimiter scenario: key prefix
`APP_`, nested delimiter `__`, case-insensitive keys. -/
def exCfg : SettingsConfig :=
  { envPre := "APP_", envNestedDelim := some "__", caseSensitive := false,
    yamlFile := some "config.yaml" }

theorem listIsPre_append : ∀ (p x : List Char), p.isPrefixOf (p ++ x) = true := by
  intro p x
  induction p with
  | nil => simp [List.isPrefixOf]
  | cons a as ih => simp [List.isPrefixOf, ih]

theorem dropPre_append (p x : String) : dropPre p (p ++ x) = some x := by
  rw [dropPre]
  have hp : isPreOf p (p ++ x) = true := listIsPre_append p.data x.data
  rw [if_pos hp]
  show some (String.mk ((p.data ++ x.data).drop p.data.length)) = some x
  rw [List.drop_left]

theorem interc_single (d s : List Char) : List.intercalate d [s] = s := by
  simp [List.intercalate, List.intersperse]

theorem interc_cons_cons (d a b : List Char) (l : List (List Char)) :
    List.intercalate d (a :: b :: l) = a ++ (d ++ List.intercalate d (b :: l)) := by
  simp [List.intercalate, List.intersperse]

theorem map_interc (f : Char → Char) (xs : List Char) (yss : List (List Char)) :
    (List.intercalate xs yss).map f = List.intercalate (xs.map f) (yss.map (List.map f)) := by
  induction yss with
  | nil => rfl
  | cons y ys ih =>
    cases ys with
    | nil => simp [List.intercalate, List.intersperse]
    | cons y2 ys2 =>
      simp only [List.intercalate, List.intersperse] at ih ⊢
      simp [ih]

/-- Scanning a delimiter-free segment of the input: the splitter pushes
its characters onto the accumulator and continues with the rest. -/
theorem scan_seg (d : List Char) (hd : d ≠ []) :
    ∀ (seg : List Char) (fuel : Nat) (rest acc : List Char),
      (∀ c ∈ d, c ∉ seg) → seg.length + rest.length ≤ fuel →
      splitFuel d fuel (seg ++ rest) acc =
        splitFuel d (fuel - seg.length) rest (seg.reverse ++ acc) := by
  intro seg
  induction seg with
  | nil =>
    intro fuel rest acc _ _
    simp
  | cons c cs ih =>
    intro fuel rest acc hch hfuel
    cases fuel with
    | zero => simp at hfuel
    | succ n =>
      show splitFuel d (n + 1) (c :: (cs ++ rest)) acc = _
      have hnp : d.isPrefixOf (c :: (cs ++ rest)) = false := by
        obtain ⟨dh, dt, rfl⟩ := List.exists_cons_of_ne_nil hd
        by_cases hdc : dh = c
        · exact absurd (List.mem_cons_self c cs)
            (hdc ▸ hch dh (List.mem_cons_self dh dt))
        · simp [List.isPrefixOf, hdc]
      rw [splitFuel]
      simp only [hnp, Bool.false_eq_true, if_false]
      have hfa : n + 1 - (c :: cs).length = n - cs.length := by
        simp only [List.length_cons]
        omega
      have hacc2 : (c :: cs).reverse ++ acc = cs.reverse ++ (c :: acc) := by simp
      rw [hfa, hacc2]
      exact ih n rest (c :: acc) (fun c2 hc2 hm => hch c2 hc2 (List.mem_cons_of_mem _ hm))
        (by simp at hfuel; omega)

/-- Splitting an intercalation of delimiter-free segments recovers the
segments, with the pending accumulator prepended to the first one. -/
theorem splitFuel_interc (d : List Char) (hd : d ≠ []) :
    ∀ (sss : List (List Char)) (s : List Char),
      (∀ t ∈ s :: sss, ∀ c ∈ d, c ∉ t) →
      ∀ fuel, (List.intercalate d (s :: sss)).length ≤ fuel →
      ∀ acc, splitFuel d fuel (List.intercalate d (s :: sss)) acc =
        (acc.reverse ++ s) :: sss := by
  intro sss
  induction sss with
  | nil =>
    intro s hch fuel hfuel acc
    rw [interc_single] at hfuel ⊢
    have hs := scan_seg d hd s fuel [] acc
      (hch s (List.mem_cons_self s [])) (by simpa using hfuel)
    rw [List.append_nil] at hs
    rw [hs, splitFuel]
    simp
  | cons s2 ss ih =>
    intro s hch fuel hfuel acc
    rw [interc_cons_cons] at hfuel ⊢
    have hlen : s.length + (d.length + (List.intercalate d (s2 :: ss)).length) ≤ fuel := by
      simpa [List.length_append] using hfuel
    rw [scan_seg d hd s fuel (d ++ List.intercalate d (s2 :: ss)) acc
      (hch s (List.mem_cons_self s _)) (by simp [List.length_append]; omega)]
    obtain ⟨dh, dt, rfl⟩ := List.exists_cons_of_ne_nil hd
    cases hFe : fuel - s.length with
    | zero => simp [List.length_cons] at hlen; omega
    | succ m =>
      show splitFuel (dh :: dt) (m + 1) (dh :: (dt ++ List.intercalate (dh :: dt) (s2 :: ss)))
        (s.reverse ++ acc) = _
      have hpre := listIsPre_append (dh :: dt) (List.intercalate (dh :: dt) (s2 :: ss))
      rw [List.cons_append] at hpre
      rw [splitFuel]
      simp only [hpre, if_true]
      have hdrop : List.drop ((dh :: dt).length - 1) (dt ++ List.intercalate (dh :: dt) (s2 :: ss)) =
          List.intercalate (dh :: dt) (s2 :: ss) := by
        simp only [List.length_cons, Nat.succ_sub_one]
        exact List.drop_left dt _
      rw [hdrop]
      rw [ih s2 (fun t ht => hch t (List.mem_cons_of_mem _ ht)) m
        (by simp [List.length_cons] at hlen; omega) []]
      simp

/-- String-level split–join roundtrip: splitting the delimiter-joined
segments on that delimiter recovers the segments, provided the delimiter
is nonempty and no segment contains a character of the delimiter. -/
theorem strSplit_join (d : String) (hdne : d.data ≠ []) (s : String) (ss : List String)
    (hch : ∀ t ∈ s :: ss, ∀ c ∈ d.data, c ∉ t.data) :
    strSplit d (strJoin d (s :: ss)) = s :: ss := by
  rw [strSplit, if_neg hdne]
  have hch2 : ∀ t ∈ s.data :: ss.map String.data, ∀ c ∈ d.data, c ∉ t := by
    intro t ht c hc
    rcases List.mem_cons.mp ht with rfl | htm
    · exact hch s (List.mem_cons_self s ss) c hc
    · obtain ⟨u, hu, rfl⟩ := List.mem_map.mp htm
      exact hch u (List.mem_cons_of_mem _ hu) c hc
  have h := splitFuel_interc d.data hdne (ss.map String.data) s.data hch2
    (List.intercalate d.data (s.data :: ss.map String.data)).length le_rfl []
  show (splitFuel d.data (List.intercalate d.data (s.data :: ss.map String.data)).length
      (List.intercalate d.data (s.data :: ss.map String.data)) []).map String.mk = s :: ss
  rw [h]
  simp only [List.reverse_nil, List.nil_append, List.map_cons, List.map_map]
  show String.mk s.data :: ss.map (fun t => String.mk t.data) = s :: ss
  have : (fun t : String => String.mk t.data) = id := funext fun t => rfl
  rw [this, List.map_id]

/-- Case-folding a delimiter-joined key folds each segment, when the
delimiter itself is unchanged by folding. -/
theorem normCase_join (cs : Bool) (d : String) (hdf : normCase cs d = d) (segs : List String) :
    normCase cs (strJoin d segs) = strJoin d (segs.map (normCase cs)) := by
  cases cs with
  | true =>
    show strJoin d segs = strJoin d (segs.map (normCase true))
    have h : segs.map (normCase true) = segs := by
      have h2 : normCase true = fun k => k := funext fun k => rfl
      rw [h2]
      exact List.map_id' segs
    rw [h]
  | false =>
    show lowerStr (strJoin d segs) = strJoin d (segs.map (normCase false))
    have hdd : d.data.map Char.toLower = d.data := by
      have : (normCase false d).data = d.data := by rw [hdf]
      exact this
    show String.mk ((List.intercalate d.data (segs.map String.data)).map Char.toLower) = _
    rw [map_interc, hdd]
    show String.mk (List.intercalate d.data ((segs.map String.data).map (List.map Char.toLower))) =
      String.mk (List.intercalate d.data ((segs.map (normCase false)).map String.data))
    rw [List.map_map, List.map_map]
    rfl

/-- C6: nested-key expansion commutes with direct nested structure — every
flat Environment key built from path segments joined by the configured
delimiter after the configured prefix, once the prefix is stripped and
the segments case-folded, expands to exactly the nested mapping that
states the same path natively, and merging the expanded Environment
mapping with any other sources coincides with merging that natively
nested structured-file mapping. The delimiter must be nonempty and
case-fold-invariant and the folded segments free of delimiter
characters, as needed for the key to decode uniquely. -/
theorem c6_env_expansion_matches_nested (cfg : SettingsConfig) (d : String)
    (segs : List String) (raw : String)
    (hdelim : cfg.envNestedDelim = some d)
    (hdne : d.data ≠ [])
    (hdfold : normCase cfg.caseSensitive d = d)
    (hsegs : segs ≠ [])
    (hch : ∀ s ∈ segs, ∀ c ∈ d.data, c ∉ (normCase cfg.caseSensitive s).data) :
    envSourceMap cfg { env := [(cfg.envPre ++ strJoin d segs, raw)] } =
      nestedSingleton (segs.map (normCase cfg.caseSensitive)) (Value.vStr raw) ∧
    ∀ rest : List RawMap,
      mergeAll (envSourceMap cfg { env := [(cfg.envPre ++ strJoin d segs, raw)] } :: rest) =
        mergeAll (nestedSingleton (segs.map (normCase cfg.caseSensitive)) (Value.vStr raw) :: rest) := by
  obtain ⟨s0, ss0, rfl⟩ := List.exists_cons_of_ne_nil hsegs
  have hch2 : ∀ t ∈ normCase cfg.caseSensitive s0 :: ss0.map (normCase cfg.caseSensitive),
      ∀ c ∈ d.data, c ∉ t.data := by
    intro t ht c hc
    rcases List.mem_cons.mp ht with rfl | htm
    · exact hch s0 (List.mem_cons_self s0 ss0) c hc
    · obtain ⟨u, hu, rfl⟩ := List.mem_map.mp htm
      exact hch u (List.mem_cons_of_mem _ hu) c hc
  have hfe : flatEntries cfg [(cfg.envPre ++ strJoin d (s0 :: ss0), raw)] =
      [(normCase cfg.caseSensitive (strJoin d (s0 :: ss0)), raw)] := by
    rw [flatEntries]
    simp [List.filterMap_cons, dropPre_append]
  have hsk : splitKey cfg.envNestedDelim
      (normCase cfg.caseSensitive (strJoin d (s0 :: ss0))) =
      (s0 :: ss0).map (normCase cfg.caseSensitive) := by
    rw [hdelim]
    show strSplit d (normCase cfg.caseSensitive (strJoin d (s0 :: ss0))) = _
    rw [normCase_join cfg.caseSensitive d hdfold (s0 :: ss0), List.map_cons]
    exact strSplit_join d hdne (normCase cfg.caseSensitive s0)
      (ss0.map (normCase cfg.caseSensitive)) hch2
  have h1 : envSourceMap cfg { env := [(cfg.envPre ++ strJoin d (s0 :: ss0), raw)] } =
      nestedSingleton ((s0 :: ss0).map (normCase cfg.caseSensitive)) (Value.vStr raw) := by
    rw [envSourceMap, expandFlat]
    show (flatEntries cfg [(cfg.envPre ++ strJoin d (s0 :: ss0), raw)]).foldl _ [] = _
    rw [hfe, List.foldl_cons, List.foldl_nil, mergeMap_nil, hsk]
  exact ⟨h1, fun rest => by rw [h1]⟩

theorem c6_witness :
    envSourceMap exCfg { env := [("APP_" ++ strJoin "__" ["DATABASE", "PORT"], "3306")] } =
      [("database", Value.vMap [("port", Value.vStr "3306")])] :=
  (c6_env_expansion_matches_nested exCfg "__" ["DATABASE", "PORT"] "3306" rfl (by decide) rfl
    (by decide) (by decide)).1

/-- C7: with zero active sources every field of the resolved instance
holds its declared default, and resolution fails (with a validation
error) exactly when some field has no declared default and no active
source supplies a value for it. -/
theorem c7_defaults_and_required_fields (cfg : SettingsConfig) (schema : List FieldSpec) :
    (∀ inst, allDefaults schema = some inst →
      resolve cfg schema emptyWorld = Except.ok inst) ∧
    (∀ w ms, orderedMaps cfg w = Except.ok ms →
      ((∃ e, resolve cfg schema w = Except.error e) ↔
        ∃ f ∈ schema, f.default = none ∧ lookupV f.name (mergeAll ms) = none)) := by
  constructor
  · intro inst h
    cases hy : cfg.yamlFile with
    | none =>
      simp only [resolve, orderedMaps, hy]
      exact buildInstance_defaults h
    | some p =>
      simp only [resolve, orderedMaps, hy, emptyWorld]
      exact buildInstance_defaults h
  · intro w ms hms
    have hres : resolve cfg schema w = buildInstance (mergeAll ms) schema := by
      simp only [resolve, hms]
    rw [hres]
    exact buildInstance_error_iff (mergeAll ms) schema

theorem c7_witness :
    resolve { envPre := "TEST_" }
        [⟨"app_name", some (Value.vStr "Default")⟩, ⟨"port", some (Value.vInt 8000)⟩]
        emptyWorld =
      Except.ok [("app_name", Value.vStr "Default"), ("port", Value.vInt 8000)] :=
  (c7_defaults_and_required_fields { envPre := "TEST_" }
      [⟨"app_name", some (Value.vStr "Default")⟩, ⟨"port", some (Value.vInt 8000)⟩]).1
    [("app_name", Value.vStr "Default"), ("port", Value.vInt 8000)] rfl

/-- C1: under the fixed total precedence Init > Environment > DotEnv >
SecretFile > StructuredFile, the composed source list places the YAML
source last after the four base sources, and for any key whose
highest-precedence supplier is the source mapping `mi` (every
higher-precedence mapping lacks the key), the final resolved instance
carries exactly the value of `mi` at that key. -/
theorem c1_precedence_highest_wins {α : Type} (cfg : SettingsConfig)
    (schema : List FieldSpec) (w : World) (i e d f : α) (p : String)
    (ym mi : RawMap) (pre post : List RawMap) (k : String) (v : Value)
    (inst : List (String × Value))
    (hyaml : cfg.yamlFile = some p)
    (hload : loadYaml w.yamlDoc = Except.ok ym)
    (hsplit : baseMaps cfg w ++ [ym] = pre ++ mi :: post)
    (hpre : ∀ m ∈ pre, lookupV k m = none)
    (hmi : lookupV k mi = some v)
    (hscalar : isMapV v = false)
    (hres : resolve cfg schema w = Except.ok inst)
    (hfield : ∃ fld ∈ schema, fld.name = k) :
    lookupV k inst = some v ∧
    settingsCustomiseSources cfg i e d f =
      [SourceObj.base i, SourceObj.base e, SourceObj.base d, SourceObj.base f,
        SourceObj.yamlSrc p (cfg.yamlFileEncoding.getD "utf-8")] := by
  constructor
  · have hres2 : buildInstance (mergeAll (pre ++ mi :: post)) schema = Except.ok inst := by
      rw [← hsplit]
      simpa only [resolve, orderedMaps, hyaml, hload] using hres
    have hmerged : lookupV k (mergeAll (pre ++ mi :: post)) = some v := by
      rw [mergeAll, List.foldl_append, List.foldl_cons]
      have hacc : lookupV k (List.foldl mergeMap [] pre) = none := by
        rw [lookupV_foldl_none pre [] hpre]
        rfl
      have hstep : lookupV k (mergeMap (List.foldl mergeMap [] pre) mi) = some v := by
        rw [lookupV_mergeMap, hacc, hmi]
      exact lookupV_foldl_stable hscalar post _ hstep
    exact buildInstance_field hres2 hfield hmerged
  · simp [settingsCustomiseSources, hyaml]

theorem c1_witness :
    lookupV "value" [("value", Value.vStr "from_init")] = some (Value.vStr "from_init") ∧
    settingsCustomiseSources { envPre := "TEST_", yamlFile := some "t.yaml" }
        (0 : Nat) 1 2 3 =
      [SourceObj.base 0, SourceObj.base 1, SourceObj.base 2, SourceObj.base 3,
        SourceObj.yamlSrc "t.yaml" "utf-8"] :=
  c1_precedence_highest_wins { envPre := "TEST_", yamlFile := some "t.yaml" }
    [⟨"value", some (Value.vStr "default")⟩]
    { initKwargs := [("value", Value.vStr "from_init")],
      env := [("TEST_VALUE", "from_env")],
      yamlDoc := YamlDoc.mapping [("value", Value.vStr "from_yaml")] }
    0 1 2 3 "t.yaml"
    [("value", Value.vStr "from_yaml")]
    [("value", Value.vStr "from_init")]
    []
    [[("value", Value.vStr "from_env")], [], [], [("value", Value.vStr "from_yaml")]]
    "value" (Value.vStr "from_init")
    [("value", Value.vStr "from_init")]
    rfl rfl rfl (by simp) rfl rfl rfl
    ⟨⟨"value", some (Value.vStr "default")⟩, by simp, rfl⟩

/-- C8: resolution is stateless and idempotent — a resolution call leaves
the outside world exactly as it found it, a second call on that world
returns the same result, and the state-threaded pipeline computes the
same answer as the direct resolution function. -/
theorem c8_stateless_idempotent (cfg : SettingsConfig) (schema : List FieldSpec) (w : World) :
    (resolveS cfg schema w).2 = w ∧
    (resolveS cfg schema ((resolveS cfg schema w).2)).1 = (resolveS cfg schema w).1 ∧
    (resolveS cfg schema w).1 = resolve cfg schema w := by
  have h2 : (resolveS cfg schema w).2 = w := by
    simp only [resolveS, fetchInit, fetchEnv, fetchDotenv, fetchSecrets, fetchYaml]
    cases hy : cfg.yamlFile with
    | none => rfl
    | some p => cases loadYaml w.yamlDoc <;> rfl
  refine ⟨h2, by rw [h2], ?_⟩
  simp only [resolveS, resolve, orderedMaps, fetchInit, fetchEnv, fetchDotenv,
    fetchSecrets, fetchYaml]
  cases hy : cfg.yamlFile with
  | none =>
    simp [baseMaps, envSourceMap, dotenvSourceMap]
  | some p =>
    cases hl : loadYaml w.yamlDoc with
    | error e => rfl
    | ok ym => simp [baseMaps, envSourceMap, dotenvSourceMap]

end Pydanticonf
